import Mathlib

/-!
# Verification of the `hoard` sharded LRU cache

A shallow embedding of the core cache engine of the `hoard` repository
(`hoard.go`).  A shard is modelled as an association list of entries
(the `sync.Map`) together with a list of keys ordered from most- to
least-recently-used (the `container/list` LRU list, front first).
Machine time (`time.Now().UnixNano()`) is passed explicitly as an `Int`
parameter `now`.  The msgpack codec is an external collaborator and is
modelled as a pair of possibly-failing functions.  Go methods that
mutate the shard in place are modelled as functions returning the new
shard state together with the Go return values; a Go `panic` in
`NewCache` is modelled as `none`.
-/

namespace Hoard

/-- Keys are Go strings. -/
abbrev Key := String

/-- `CacheItem` from `hoard.go`: the serialized payload bytes and the
expiration instant (`UnixNano`).  The Go struct's `LRUElement` pointer is
represented implicitly by the key's position in the shard's `lruList`. -/
structure CacheItem where
  Value : List Nat
  Expiration : Int
  deriving Repr, DecidableEq

/-- `CacheShard` from `hoard.go`: the `sync.Map` is an association list,
the `container/list` LRU list is a list of keys, most recently used first. -/
structure CacheShard where
  data : List (Key × CacheItem)
  lruList : List Key
  deriving Repr, DecidableEq

/-- A freshly created shard (`list.New()`, empty `sync.Map`). -/
def emptyShard : CacheShard := ⟨[], []⟩

/-- The external serialization codec (`serialize` / `deserialize`
wrapping msgpack): both directions may fail. -/
structure Codec (V : Type) where
  serialize : V → Option (List Nat)
  deserialize : List Nat → Option V

/-- The possible error values returned by the cache operations. -/
inductive HoardErr where
  | serializationError
  | deserializationError
  | keyNotFound (key : Key)
  deriving Repr, DecidableEq

/-- `sync.Map.Load`: find the entry stored under a key. -/
def mapLoad : List (Key × CacheItem) → Key → Option CacheItem
  | [], _ => none
  | (k', it) :: rest, k => if k = k' then some it else mapLoad rest k

/-- `sync.Map.Delete`: remove the entry stored under a key (if any). -/
def mapDelete : List (Key × CacheItem) → Key → List (Key × CacheItem)
  | [], _ => []
  | (k', it) :: rest, k => if k' = k then mapDelete rest k else (k', it) :: mapDelete rest k

/-- `sync.Map.Store`: insert or replace the entry stored under a key. -/
def mapStore (m : List (Key × CacheItem)) (k : Key) (it : CacheItem) :
    List (Key × CacheItem) :=
  (k, it) :: mapDelete m k

/-- `Cache.Store` from `hoard.go`.  Serializes the value (failure aborts
with no mutation), detaches an existing entry's LRU element, pushes the
key to the front of the LRU list, stores the new item (the `sync.Pool`
item has every field overwritten, so it is a fresh `CacheItem` here),
and finally evicts the back of the LRU list when the list length
exceeds `maxItemsPerShard`.  Returns the Go `error` (`none` = nil) and
the shard state after the call. -/
def store {V : Type} (cd : Codec V) (maxItemsPerShard : Int) (now : Int)
    (shard : CacheShard) (key : Key) (value : V) (ttl : Int) :
    Option HoardErr × CacheShard :=
  let expiration := now + ttl
  match cd.serialize value with
  | none => (some .serializationError, shard)
  | some serializedValue =>
    let lru1 := match mapLoad shard.data key with
      | some _ => shard.lruList.erase key
      | none => shard.lruList
    let lru2 := key :: lru1
    let data2 := mapStore shard.data key ⟨serializedValue, expiration⟩
    if (lru2.length : Int) > maxItemsPerShard then
      match lru2.getLast? with
      | some oldestKey => (none, ⟨mapDelete data2 oldestKey, lru2.dropLast⟩)
      | none => (none, ⟨data2, lru2⟩)
    else
      (none, ⟨data2, lru2⟩)

/-- `Cache.removeExpiredItem` from `hoard.go`: remove an expired item
from both the map and the LRU list. -/
def removeExpiredItem (shard : CacheShard) (key : Key) : CacheShard :=
  match mapLoad shard.data key with
  | some _ => ⟨mapDelete shard.data key, shard.lruList.erase key⟩
  | none => shard

/-- `Cache.Fetch` from `hoard.go`.  Returns the Go results
`(value, found, error)` and the shard state after the call: a miss on an
absent key, lazy removal of an expired entry, a deserialization error
(entry left in place), or a hit which moves the key to the front of the
LRU list. -/
def fetch {V : Type} (cd : Codec V) (now : Int) (shard : CacheShard)
    (key : Key) : (Option V × Bool × Option HoardErr) × CacheShard :=
  match mapLoad shard.data key with
  | none => ((none, false, none), shard)
  | some cacheItem =>
    if now > cacheItem.Expiration then
      ((none, false, none), removeExpiredItem shard key)
    else
      match cd.deserialize cacheItem.Value with
      | none => ((none, false, some .deserializationError), shard)
      | some value =>
        ((some value, true, none), ⟨shard.data, key :: shard.lruList.erase key⟩)

/-- `Cache.Update` from `hoard.go`.  Serializes first; an absent key
fails with a key-not-found error and no mutation; a present key has its
payload and expiration replaced in place and its LRU element moved to
the front.  No eviction check is performed. -/
def update {V : Type} (cd : Codec V) (now : Int) (shard : CacheShard)
    (key : Key) (value : V) (ttl : Int) : Option HoardErr × CacheShard :=
  let expiration := now + ttl
  match cd.serialize value with
  | none => (some .serializationError, shard)
  | some serializedValue =>
    match mapLoad shard.data key with
    | none => (some (.keyNotFound key), shard)
    | some _ =>
      (none, ⟨mapStore shard.data key ⟨serializedValue, expiration⟩,
              key :: shard.lruList.erase key⟩)

/-- `Cache.Delete` from `hoard.go`: remove the key from both the map and
the LRU list when present; a no-op when absent. -/
def delete (shard : CacheShard) (key : Key) : CacheShard :=
  match mapLoad shard.data key with
  | some _ => ⟨mapDelete shard.data key, shard.lruList.erase key⟩
  | none => shard

/-- `Cache.cleanupShard` from `hoard.go` (one background-sweep pass over
one shard): every entry with `now > Expiration` is deleted from the map
and its element removed from the LRU list. -/
def cleanupShard (now : Int) (shard : CacheShard) : CacheShard :=
  let expiredKeys :=
    (shard.data.filter (fun p => decide (now > p.2.Expiration))).map Prod.fst
  ⟨shard.data.filter (fun p => !decide (now > p.2.Expiration)),
   shard.lruList.filter (fun k => !decide (k ∈ expiredKeys))⟩

/-- The per-shard work of `Cache.CleanupAll` from `hoard.go`: every key
is deleted from the map and the LRU list is reset (`lruList.Init()`). -/
def clearShard (_shard : CacheShard) : CacheShard := ⟨[], []⟩

/-- The configuration held by a `Cache` value as built by `NewCache`. -/
structure CacheConfig where
  numShards : Int
  maxItemsPerShard : Int
  cleanupInterval : Int
  deriving Repr, DecidableEq

/-- `NewCache` from `hoard.go`: panics (modelled as `none`) when
`numShards <= 0` or `maxItemsPerShard <= 0`; otherwise returns the
configured cache.  The function body performs no check of
`cleanupInterval`. -/
def newCache (numShards maxItemsPerShard cleanupInterval : Int) :
    Option CacheConfig :=
  if numShards ≤ 0 then none
  else if maxItemsPerShard ≤ 0 then none
  else some ⟨numShards, maxItemsPerShard, cleanupInterval⟩

/-- A sequence of `Store` calls applied to a shard; each element of
`ops` is `(now, key, value, ttl)`. -/
def applyStores {V : Type} (cd : Codec V) (maxItemsPerShard : Int)
    (shard : CacheShard) : List (Int × Key × V × Int) → CacheShard
  | [] => shard
  | (now, k, v, ttl) :: rest =>
      applyStores cd maxItemsPerShard (store cd maxItemsPerShard now shard k v ttl).2 rest

/-- The number of entries a shard holds. -/
def sizeShard (s : CacheShard) : Nat := s.data.length

/-- The consistency invariant of a shard: the map's keys are distinct
(true of any map), the LRU list holds no duplicates, and a key is in
the LRU list exactly when it is in the map. -/
structure WF (s : CacheShard) : Prop where
  dataNodup : (s.data.map Prod.fst).Nodup
  lruNodup : s.lruList.Nodup
  lru_sub : ∀ k ∈ s.lruList, k ∈ s.data.map Prod.fst
  data_sub : ∀ k ∈ s.data.map Prod.fst, k ∈ s.lruList

/-- The invariant exactly as the specification words it: a key is
present in the entry map if and only if it appears exactly once in the
LRU order. -/
def entriesLruInv (s : CacheShard) : Prop :=
  ∀ k, (mapLoad s.data k).isSome ↔ s.lruList.count k = 1

/-- A codec used to instantiate theorems: a `Nat` payload is its own
one-byte serialization. -/
def natCodec : Codec Nat := ⟨fun n => some [n], fun l => l.head?⟩

/-- A codec whose serialization always fails. -/
def failCodec : Codec Nat := ⟨fun _ => none, fun _ => none⟩

/-- A sample shard holding one entry that expires at instant 1. -/
def expiredShard : CacheShard := ⟨[("a", ⟨[5], 1⟩)], ["a"]⟩

/-- A sample shard holding one live entry. -/
def oneShard : CacheShard := ⟨[("a", ⟨[3], 100⟩)], ["a"]⟩

/-- A sample shard holding one entry expiring at 1 and one at 9. -/
def mixedShard : CacheShard := ⟨[("a", ⟨[], 1⟩), ("b", ⟨[], 9⟩)], ["a", "b"]⟩

/-! ## Helper lemmas about the map model -/

theorem mapLoad_eq_none_iff {m : List (Key × CacheItem)} {k : Key} :
    mapLoad m k = none ↔ k ∉ m.map Prod.fst := by
  induction m with
  | nil => simp [mapLoad]
  | cons p rest ih =>
    obtain ⟨k', it⟩ := p
    by_cases h : k = k' <;> simp [mapLoad, h, ih]

theorem mapLoad_isSome_iff {m : List (Key × CacheItem)} {k : Key} :
    (mapLoad m k).isSome ↔ k ∈ m.map Prod.fst := by
  simp [Option.isSome_iff_ne_none, ne_eq, mapLoad_eq_none_iff]

theorem mapLoad_mapDelete {m : List (Key × CacheItem)} {k x : Key} :
    mapLoad (mapDelete m k) x = if x = k then none else mapLoad m x := by
  induction m with
  | nil => simp [mapLoad, mapDelete]
  | cons p rest ih =>
    obtain ⟨k', it⟩ := p
    simp only [mapDelete]
    by_cases hk : k' = k
    · rw [if_pos hk, ih]
      by_cases hx : x = k <;> simp [mapLoad, hx, hk]
    · rw [if_neg hk]
      by_cases hx : x = k'
      · subst hx
        simp [mapLoad, hk]
      · simp [mapLoad, hx, ih]

theorem mapLoad_mapStore {m : List (Key × CacheItem)} {k x : Key}
    {it : CacheItem} :
    mapLoad (mapStore m k it) x = if x = k then some it else mapLoad m x := by
  by_cases hx : x = k <;> simp [mapStore, mapLoad, hx, mapLoad_mapDelete]

theorem mem_keys_mapDelete {m : List (Key × CacheItem)} {k x : Key} :
    x ∈ (mapDelete m k).map Prod.fst ↔ x ∈ m.map Prod.fst ∧ x ≠ k := by
  induction m with
  | nil => simp [mapDelete]
  | cons p rest ih =>
    obtain ⟨k', it⟩ := p
    simp only [mapDelete]
    by_cases hk : k' = k
    · rw [if_pos hk, ih]
      subst hk
      simp only [List.map_cons, List.mem_cons]
      constructor
      · rintro ⟨hm, hne⟩
        exact ⟨Or.inr hm, hne⟩
      · rintro ⟨hm | hm, hne⟩
        · exact absurd hm hne
        · exact ⟨hm, hne⟩
    · rw [if_neg hk]
      simp only [List.map_cons, List.mem_cons, ih]
      constructor
      · rintro (rfl | ⟨hm, hne⟩)
        · exact ⟨Or.inl rfl, hk⟩
        · exact ⟨Or.inr hm, hne⟩
      · rintro ⟨rfl | hm, hne⟩
        · exact Or.inl rfl
        · exact Or.inr ⟨hm, hne⟩

theorem nodup_keys_mapDelete {m : List (Key × CacheItem)} {k : Key}
    (h : (m.map Prod.fst).Nodup) : ((mapDelete m k).map Prod.fst).Nodup := by
  induction m with
  | nil => simp [mapDelete]
  | cons p rest ih =>
    obtain ⟨k', it⟩ := p
    simp only [List.map_cons, List.nodup_cons] at h
    simp only [mapDelete]
    by_cases hk : k' = k
    · rw [if_pos hk]
      exact ih h.2
    · rw [if_neg hk]
      simp only [List.map_cons, List.nodup_cons]
      exact ⟨fun hmem => h.1 (mem_keys_mapDelete.1 hmem).1, ih h.2⟩

theorem mem_keys_mapStore {m : List (Key × CacheItem)} {k x : Key}
    {it : CacheItem} :
    x ∈ (mapStore m k it).map Prod.fst ↔
      x = k ∨ (x ∈ m.map Prod.fst ∧ x ≠ k) := by
  simp only [mapStore, List.map_cons, List.mem_cons]
  rw [mem_keys_mapDelete]

theorem nodup_keys_mapStore {m : List (Key × CacheItem)} {k : Key}
    {it : CacheItem} (h : (m.map Prod.fst).Nodup) :
    ((mapStore m k it).map Prod.fst).Nodup := by
  simp only [mapStore, List.map_cons, List.nodup_cons]
  refine ⟨fun hmem => ?_, nodup_keys_mapDelete h⟩
  exact (mem_keys_mapDelete.1 hmem).2 rfl

/-! ## Helper lemmas about the LRU order and the invariant -/

theorem mem_dropLast_iff_of_nodup {α : Type} {l : List α} (hn : l.Nodup)
    (h : l ≠ []) {x : α} :
    x ∈ l.dropLast ↔ x ∈ l ∧ x ≠ l.getLast h := by
  have heq := List.dropLast_append_getLast h
  constructor
  · intro hx
    refine ⟨by rw [← heq]; exact List.mem_append_left _ hx, fun hxl => ?_⟩
    have hnd := hn
    rw [← heq] at hnd
    rcases List.nodup_append.1 hnd with ⟨-, -, hdisj⟩
    exact hdisj hx (by simp [hxl])
  · rintro ⟨hxl, hne⟩
    rw [← heq] at hxl
    rcases List.mem_append.1 hxl with h1 | h1
    · exact h1
    · simp only [List.mem_singleton] at h1
      exact absurd h1 hne

theorem WF.mem_iff {s : CacheShard} (h : WF s) {k : Key} :
    k ∈ s.lruList ↔ k ∈ s.data.map Prod.fst :=
  ⟨h.lru_sub k, h.data_sub k⟩

theorem WF.length_eq {s : CacheShard} (h : WF s) :
    s.lruList.length = s.data.length := by
  have hperm : s.lruList.Perm (s.data.map Prod.fst) :=
    (List.perm_ext_iff_of_nodup h.lruNodup h.dataNodup).2 fun a => h.mem_iff
  simpa using hperm.length_eq

theorem WF.entriesInv {s : CacheShard} (h : WF s) : entriesLruInv s := by
  intro k
  rw [mapLoad_isSome_iff]
  constructor
  · intro hm
    exact List.count_eq_one_of_mem h.lruNodup (h.data_sub k hm)
  · intro hc
    by_contra hn
    have hnl : k ∉ s.lruList := fun hmem => hn (h.lru_sub k hmem)
    rw [List.count_eq_zero.2 hnl] at hc
    exact absurd hc (by simp)

theorem wf_empty : WF emptyShard := by
  constructor <;> simp [emptyShard]

/-- Moving a present key to the front of the LRU order preserves the
invariant. -/
theorem wf_moveFront {s : CacheShard} {k : Key} (hwf : WF s)
    (hk : k ∈ s.data.map Prod.fst) :
    WF ⟨s.data, k :: s.lruList.erase k⟩ := by
  refine ⟨hwf.dataNodup, ?_, ?_, ?_⟩
  · exact List.nodup_cons.2 ⟨hwf.lruNodup.not_mem_erase, hwf.lruNodup.erase k⟩
  · intro x hx
    rcases List.mem_cons.1 hx with rfl | hx
    · exact hk
    · exact hwf.lru_sub x ((hwf.lruNodup.mem_erase_iff).1 hx).2
  · intro x hx
    by_cases hxk : x = k
    · exact hxk ▸ List.mem_cons_self _ _
    · exact List.mem_cons.2 (Or.inr ((hwf.lruNodup.mem_erase_iff).2
        ⟨hxk, hwf.data_sub x hx⟩))

/-- Inserting or replacing a key at the front of the LRU order preserves
the invariant. -/
theorem wf_storeFront {s : CacheShard} {k : Key} {it : CacheItem}
    (hwf : WF s) :
    WF ⟨mapStore s.data k it, k :: s.lruList.erase k⟩ := by
  refine ⟨nodup_keys_mapStore hwf.dataNodup, ?_, ?_, ?_⟩
  · exact List.nodup_cons.2 ⟨hwf.lruNodup.not_mem_erase, hwf.lruNodup.erase k⟩
  · intro x hx
    rcases List.mem_cons.1 hx with rfl | hx
    · exact mem_keys_mapStore.2 (Or.inl rfl)
    · rcases (hwf.lruNodup.mem_erase_iff).1 hx with ⟨hne, hmem⟩
      exact mem_keys_mapStore.2 (Or.inr ⟨hwf.lru_sub x hmem, hne⟩)
  · intro x hx
    rcases mem_keys_mapStore.1 hx with rfl | ⟨hmem, hne⟩
    · exact List.mem_cons_self _ _
    · exact List.mem_cons.2 (Or.inr ((hwf.lruNodup.mem_erase_iff).2
        ⟨hne, hwf.data_sub x hmem⟩))

/-- Removing a key from both the map and the LRU order preserves the
invariant. -/
theorem wf_deleteKey {s : CacheShard} {k : Key} (hwf : WF s) :
    WF ⟨mapDelete s.data k, s.lruList.erase k⟩ := by
  refine ⟨nodup_keys_mapDelete hwf.dataNodup, hwf.lruNodup.erase k, ?_, ?_⟩
  · intro x hx
    rcases (hwf.lruNodup.mem_erase_iff).1 hx with ⟨hne, hmem⟩
    exact mem_keys_mapDelete.2 ⟨hwf.lru_sub x hmem, hne⟩
  · intro x hx
    rcases mem_keys_mapDelete.1 hx with ⟨hmem, hne⟩
    exact (hwf.lruNodup.mem_erase_iff).2 ⟨hne, hwf.data_sub x hmem⟩

/-! ## Characterization of `store` on well-formed shards -/

/-- On a well-formed shard the conditional LRU detach in `store` is an
unconditional `erase`. -/
theorem store_lru_detach {s : CacheShard} {k : Key} (hwf : WF s) :
    (match mapLoad s.data k with
      | some _ => s.lruList.erase k
      | none => s.lruList) = s.lruList.erase k := by
  cases h : mapLoad s.data k with
  | none =>
    simp only
    rw [List.erase_of_not_mem fun hmem =>
      (mapLoad_eq_none_iff.1 h) (hwf.lru_sub k hmem)]
  | some it => simp only

/-- What `store` computes on a well-formed shard when serialization
succeeds: the key is pushed to the front of the fresh LRU order, and the
back of that order is evicted exactly when the order is longer than
`maxItemsPerShard`. -/
theorem store_eq {V : Type} {cd : Codec V} {max now : Int} {s : CacheShard}
    {k : Key} {v : V} {ttl : Int} {pv : List Nat}
    (hwf : WF s) (hser : cd.serialize v = some pv) :
    store cd max now s k v ttl =
      (none,
        if ((k :: s.lruList.erase k).length : Int) > max then
          ⟨mapDelete (mapStore s.data k ⟨pv, now + ttl⟩)
             ((k :: s.lruList.erase k).getLast (List.cons_ne_nil _ _)),
           (k :: s.lruList.erase k).dropLast⟩
        else
          ⟨mapStore s.data k ⟨pv, now + ttl⟩, k :: s.lruList.erase k⟩) := by
  rw [store, hser]
  simp only [store_lru_detach hwf,
    List.getLast?_eq_getLast _ (List.cons_ne_nil k (s.lruList.erase k))]
  split <;> rfl

/-- Evicting the entry at the back of the LRU order preserves the
invariant. -/
theorem wf_evictBack {s : CacheShard} (hwf : WF s) (h : s.lruList ≠ []) :
    WF ⟨mapDelete s.data (s.lruList.getLast h), s.lruList.dropLast⟩ := by
  refine ⟨nodup_keys_mapDelete hwf.dataNodup,
    (List.dropLast_sublist _).nodup hwf.lruNodup, ?_, ?_⟩
  · intro x hx
    rcases (mem_dropLast_iff_of_nodup hwf.lruNodup h).1 hx with ⟨hmem, hne⟩
    exact mem_keys_mapDelete.2 ⟨hwf.lru_sub x hmem, hne⟩
  · intro x hx
    rcases mem_keys_mapDelete.1 hx with ⟨hmem, hne⟩
    exact (mem_dropLast_iff_of_nodup hwf.lruNodup h).2 ⟨hwf.data_sub x hmem, hne⟩

/-- A failing serialization aborts `store` with no mutation. -/
theorem store_serialize_fail {V : Type} {cd : Codec V} {max now ttl : Int}
    {s : CacheShard} {k : Key} {v : V} (hser : cd.serialize v = none) :
    store cd max now s k v ttl = (some .serializationError, s) := by
  rw [store, hser]

/-- `store` preserves the shard invariant. -/
theorem wf_store {V : Type} {cd : Codec V} {max now ttl : Int}
    {s : CacheShard} {k : Key} {v : V} (hwf : WF s) :
    WF (store cd max now s k v ttl).2 := by
  cases hser : cd.serialize v with
  | none => rw [store_serialize_fail hser]; exact hwf
  | some pv =>
    rw [store_eq hwf hser]
    dsimp only
    split
    · exact wf_evictBack (wf_storeFront hwf) (List.cons_ne_nil _ _)
    · exact wf_storeFront hwf

/-- A successful `store` returns a nil error. -/
theorem store_ok {V : Type} {cd : Codec V} {max now ttl : Int}
    {s : CacheShard} {k : Key} {v : V} {pv : List Nat}
    (hwf : WF s) (hser : cd.serialize v = some pv) :
    (store cd max now s k v ttl).1 = none := by
  rw [store_eq hwf hser]

/-- `store` keeps the shard at or below capacity. -/
theorem sizeShard_store_le {V : Type} {cd : Codec V} {max now ttl : Int}
    {s : CacheShard} {k : Key} {v : V}
    (hwf : WF s) (hsz : (sizeShard s : Int) ≤ max) :
    (sizeShard (store cd max now s k v ttl).2 : Int) ≤ max := by
  cases hser : cd.serialize v with
  | none => rw [store_serialize_fail hser]; exact hsz
  | some pv =>
    have hlen1 : (s.lruList.erase k).length ≤ s.lruList.length :=
      List.length_erase_le k s.lruList
    have hsl : s.lruList.length = s.data.length := hwf.length_eq
    by_cases hc : ((k :: s.lruList.erase k).length : Int) > max
    · rw [store_eq hwf hser]
      dsimp only
      rw [if_pos hc]
      have hwf2 := wf_evictBack (s := ⟨mapStore s.data k ⟨pv, now + ttl⟩,
        k :: s.lruList.erase k⟩) (wf_storeFront hwf) (List.cons_ne_nil _ _)
      have hlen2 := hwf2.length_eq
      simp only [List.length_dropLast, List.length_cons] at hlen2
      simp only [sizeShard] at hsz ⊢
      omega
    · rw [store_eq hwf hser]
      dsimp only
      rw [if_neg hc]
      have hwf2 : WF ⟨mapStore s.data k ⟨pv, now + ttl⟩,
          k :: s.lruList.erase k⟩ := wf_storeFront hwf
      have hlen2 := hwf2.length_eq
      simp only [List.length_cons] at hlen2
      simp only [sizeShard] at hsz ⊢
      simp only [List.length_cons] at hc
      omega

/-- Invariant and capacity bound preserved by any sequence of `Store`
calls. -/
theorem applyStores_invariant {V : Type} (cd : Codec V) (max : Int) :
    ∀ (ops : List (Int × Key × V × Int)) (s : CacheShard), WF s →
      (sizeShard s : Int) ≤ max →
      WF (applyStores cd max s ops) ∧
        (sizeShard (applyStores cd max s ops) : Int) ≤ max
  | [], _, hwf, hsz => ⟨hwf, hsz⟩
  | (_, k, v, ttl) :: rest, s, hwf, hsz =>
      applyStores_invariant cd max rest _ (wf_store hwf)
        (sizeShard_store_le hwf hsz)

/-- After a successful `store`, the key is present with the serialized
payload and the computed expiration. -/
theorem store_load_self {V : Type} {cd : Codec V} {max now ttl : Int}
    {s : CacheShard} {k : Key} {v : V} {pv : List Nat}
    (hwf : WF s) (hmax : 1 ≤ max) (hser : cd.serialize v = some pv) :
    mapLoad (store cd max now s k v ttl).2.data k = some ⟨pv, now + ttl⟩ := by
  by_cases hc : ((k :: s.lruList.erase k).length : Int) > max
  · have hne : s.lruList.erase k ≠ [] := by
      intro h
      rw [h] at hc
      simp at hc
      omega
    have hback_ne : k ≠ (s.lruList.erase k).getLast hne := by
      intro heq
      have hmem := List.getLast_mem hne
      rw [← heq] at hmem
      exact hwf.lruNodup.not_mem_erase hmem
    rw [store_eq hwf hser]
    dsimp only
    rw [if_pos hc, List.getLast_cons hne, mapLoad_mapDelete,
      if_neg hback_ne, mapLoad_mapStore, if_pos rfl]
  · rw [store_eq hwf hser]
    dsimp only
    rw [if_neg hc, mapLoad_mapStore, if_pos rfl]

/-- After a successful `store`, any other removed key is the one at the
back of the refreshed LRU order. -/
theorem store_removed_key {V : Type} {cd : Codec V} {max now ttl : Int}
    {s : CacheShard} {k k' : Key} {v : V} {pv : List Nat}
    (hwf : WF s) (hser : cd.serialize v = some pv) (hne : k' ≠ k)
    (hbefore : (mapLoad s.data k').isSome)
    (hafter : mapLoad (store cd max now s k v ttl).2.data k' = none) :
    (k :: s.lruList.erase k).getLast? = some k' := by
  rw [store_eq hwf hser] at hafter
  dsimp only at hafter
  by_cases hc : ((k :: s.lruList.erase k).length : Int) > max
  · rw [if_pos hc, mapLoad_mapDelete] at hafter
    by_cases heq : k' = (k :: s.lruList.erase k).getLast (List.cons_ne_nil _ _)
    · rw [List.getLast?_eq_getLast _ (List.cons_ne_nil _ _), ← heq]
    · rw [if_neg heq, mapLoad_mapStore, if_neg hne,
        ← Option.not_isSome_iff_eq_none] at hafter
      exact absurd hbefore hafter
  · rw [if_neg hc, mapLoad_mapStore, if_neg hne,
      ← Option.not_isSome_iff_eq_none] at hafter
    exact absurd hbefore hafter

/-- After a successful `store`, the key at the back of the refreshed LRU
order is evicted exactly when the refreshed order exceeds capacity — no
expiration state is consulted. -/
theorem store_evict_iff {V : Type} {cd : Codec V} {max now ttl : Int}
    {s : CacheShard} {k : Key} {v : V} {pv : List Nat}
    (hwf : WF s) (hser : cd.serialize v = some pv)
    (hne : s.lruList.erase k ≠ []) :
    mapLoad (store cd max now s k v ttl).2.data
        ((s.lruList.erase k).getLast hne) = none ↔
      ((k :: s.lruList.erase k).length : Int) > max := by
  have hmem : (s.lruList.erase k).getLast hne ∈ s.lruList.erase k :=
    List.getLast_mem hne
  have hback_ne : (s.lruList.erase k).getLast hne ≠ k := fun heq =>
    hwf.lruNodup.not_mem_erase (heq ▸ hmem)
  have hback_mem : ((s.lruList.erase k).getLast hne) ∈ s.data.map Prod.fst :=
    hwf.lru_sub _ (List.mem_of_mem_erase hmem)
  rw [store_eq hwf hser]
  dsimp only
  by_cases hc : ((k :: s.lruList.erase k).length : Int) > max
  · rw [if_pos hc, List.getLast_cons hne, mapLoad_mapDelete, if_pos rfl]
    simpa using hc
  · rw [if_neg hc, mapLoad_mapStore, if_neg hback_ne]
    constructor
    · intro hnone
      exact absurd (mapLoad_isSome_iff.2 hback_mem)
        (by rw [hnone]; simp)
    · intro h
      exact absurd h hc

/-! ## Characterization of `fetch`, `update`, `delete`, `cleanupShard` -/

theorem fetch_miss {V : Type} {cd : Codec V} {now : Int} {s : CacheShard}
    {k : Key} (h : mapLoad s.data k = none) :
    fetch cd now s k = ((none, false, none), s) := by
  rw [fetch, h]

theorem fetch_expired {V : Type} {cd : Codec V} {now : Int} {s : CacheShard}
    {k : Key} {it : CacheItem} (hit : mapLoad s.data k = some it)
    (hexp : now > it.Expiration) :
    fetch cd now s k =
      ((none, false, none), ⟨mapDelete s.data k, s.lruList.erase k⟩) := by
  simp only [fetch, hit]
  rw [if_pos hexp, removeExpiredItem, hit]

theorem fetch_decode_fail {V : Type} {cd : Codec V} {now : Int}
    {s : CacheShard} {k : Key} {it : CacheItem}
    (hit : mapLoad s.data k = some it) (hexp : ¬now > it.Expiration)
    (hdes : cd.deserialize it.Value = none) :
    fetch cd now s k = ((none, false, some .deserializationError), s) := by
  simp only [fetch, hit]
  rw [if_neg hexp, hdes]

theorem fetch_hit {V : Type} {cd : Codec V} {now : Int} {s : CacheShard}
    {k : Key} {it : CacheItem} {v : V}
    (hit : mapLoad s.data k = some it) (hexp : ¬now > it.Expiration)
    (hdes : cd.deserialize it.Value = some v) :
    fetch cd now s k =
      ((some v, true, none), ⟨s.data, k :: s.lruList.erase k⟩) := by
  simp only [fetch, hit]
  rw [if_neg hexp, hdes]

theorem wf_fetch {V : Type} {cd : Codec V} {now : Int} {s : CacheShard}
    {k : Key} (hwf : WF s) : WF (fetch cd now s k).2 := by
  cases hit : mapLoad s.data k with
  | none => rw [fetch_miss hit]; exact hwf
  | some it =>
    by_cases hexp : now > it.Expiration
    · rw [fetch_expired hit hexp]
      exact wf_deleteKey hwf
    · cases hdes : cd.deserialize it.Value with
      | none => rw [fetch_decode_fail hit hexp hdes]; exact hwf
      | some v =>
        rw [fetch_hit hit hexp hdes]
        exact wf_moveFront hwf (mapLoad_isSome_iff.1 (by rw [hit]; rfl))

theorem update_serialize_fail {V : Type} {cd : Codec V} {now ttl : Int}
    {s : CacheShard} {k : Key} {v : V} (hser : cd.serialize v = none) :
    update cd now s k v ttl = (some .serializationError, s) := by
  rw [update, hser]

theorem update_absent {V : Type} {cd : Codec V} {now ttl : Int}
    {s : CacheShard} {k : Key} {v : V} {pv : List Nat}
    (hser : cd.serialize v = some pv) (habs : mapLoad s.data k = none) :
    update cd now s k v ttl = (some (.keyNotFound k), s) := by
  rw [update, hser, habs]

theorem update_present {V : Type} {cd : Codec V} {now ttl : Int}
    {s : CacheShard} {k : Key} {v : V} {pv : List Nat} {it : CacheItem}
    (hser : cd.serialize v = some pv) (hit : mapLoad s.data k = some it) :
    update cd now s k v ttl =
      (none, ⟨mapStore s.data k ⟨pv, now + ttl⟩,
              k :: s.lruList.erase k⟩) := by
  rw [update, hser, hit]

theorem wf_update {V : Type} {cd : Codec V} {now ttl : Int} {s : CacheShard}
    {k : Key} {v : V} (hwf : WF s) : WF (update cd now s k v ttl).2 := by
  cases hser : cd.serialize v with
  | none => rw [update_serialize_fail hser]; exact hwf
  | some pv =>
    cases hit : mapLoad s.data k with
    | none => rw [update_absent hser hit]; exact hwf
    | some it => rw [update_present hser hit]; exact wf_storeFront hwf

theorem wf_delete {s : CacheShard} {k : Key} (hwf : WF s) :
    WF (delete s k) := by
  rw [delete]
  cases hit : mapLoad s.data k with
  | none => exact hwf
  | some it => exact wf_deleteKey hwf

/-- `mapLoad` after filtering an association list with distinct keys. -/
theorem mapLoad_filter {m : List (Key × CacheItem)}
    {p : Key × CacheItem → Bool} {x : Key}
    (hnd : (m.map Prod.fst).Nodup) :
    mapLoad (m.filter p) x =
      match mapLoad m x with
      | some it => if p (x, it) then some it else none
      | none => none := by
  induction m with
  | nil => simp [mapLoad]
  | cons q rest ih =>
    obtain ⟨k', it'⟩ := q
    simp only [List.map_cons, List.nodup_cons] at hnd
    by_cases hx : x = k'
    · subst hx
      cases hp : p (x, it') with
      | true =>
        simp [List.filter_cons, hp, mapLoad]
      | false =>
        simp only [List.filter_cons, hp, Bool.false_eq_true, if_false]
        rw [ih hnd.2, mapLoad_eq_none_iff.2 hnd.1]
        simp [mapLoad, hp]
    · cases hp : p (k', it') with
      | true =>
        simp only [List.filter_cons, hp, if_true]
        rw [mapLoad, if_neg hx, mapLoad, if_neg hx]
        exact ih hnd.2
      | false =>
        simp only [List.filter_cons, hp, Bool.false_eq_true, if_false]
        rw [ih hnd.2, mapLoad, if_neg hx]

/-- Membership in the keys of a filtered association list with distinct
keys. -/
theorem mem_keys_filter {m : List (Key × CacheItem)}
    {p : Key × CacheItem → Bool} {x : Key}
    (hnd : (m.map Prod.fst).Nodup) :
    x ∈ (m.filter p).map Prod.fst ↔
      ∃ it, mapLoad m x = some it ∧ p (x, it) = true := by
  rw [← mapLoad_isSome_iff, mapLoad_filter hnd]
  cases h : mapLoad m x with
  | none => simp
  | some it =>
    by_cases hp : p (x, it) = true
    · simp [hp]
    · simp [hp]

theorem wf_cleanupShard {now : Int} {s : CacheShard} (hwf : WF s) :
    WF (cleanupShard now s) := by
  rw [cleanupShard]
  refine ⟨?_, ?_, ?_, ?_⟩
  · exact ((List.filter_sublist _).map Prod.fst).nodup hwf.dataNodup
  · exact (List.filter_sublist _).nodup hwf.lruNodup
  · intro x hx
    rcases List.mem_filter.1 hx with ⟨hmem, hcond⟩
    rcases Option.isSome_iff_exists.1
      (mapLoad_isSome_iff.2 (hwf.lru_sub x hmem)) with ⟨it, hload⟩
    have hnotexp : ¬now > it.Expiration := by
      intro hgt
      have hxmem : x ∈ ((s.data.filter
          (fun p => decide (now > p.2.Expiration))).map Prod.fst) :=
        (mem_keys_filter hwf.dataNodup).2 ⟨it, hload, by simp [hgt]⟩
      simp [hxmem] at hcond
    exact (mem_keys_filter hwf.dataNodup).2 ⟨it, hload, by simp [hnotexp]⟩
  · intro x hx
    rcases (mem_keys_filter hwf.dataNodup).1 hx with ⟨it, hload, hcond⟩
    have hnotexp : ¬now > it.Expiration := by simpa using hcond
    refine List.mem_filter.2 ⟨hwf.data_sub x
      (mapLoad_isSome_iff.1 (by rw [hload]; rfl)), ?_⟩
    simp only [Bool.not_eq_true', decide_eq_false_iff_not]
    intro hxmem
    rcases (mem_keys_filter hwf.dataNodup).1 hxmem with ⟨it₂, hload₂, hcond₂⟩
    rw [hload] at hload₂
    cases hload₂
    simp only [decide_eq_true_eq] at hcond₂
    exact hnotexp hcond₂

theorem wf_expiredShard : WF expiredShard := by
  refine ⟨?_, ?_, ?_, ?_⟩ <;> decide

theorem wf_oneShard : WF oneShard := by
  refine ⟨?_, ?_, ?_, ?_⟩ <;> decide

theorem wf_mixedShard : WF mixedShard := by
  refine ⟨?_, ?_, ?_, ?_⟩ <;> decide

/-! ## The claims -/

/-- C8: if encoding the value fails then `Store` returns an encoding
error and performs no mutation at all — the returned shard state is
exactly the state before the call. -/
theorem claim_C8 {V : Type} (cd : Codec V) (max now ttl : Int)
    (s : CacheShard) (k : Key) (v : V) (hser : cd.serialize v = none) :
    store cd max now s k v ttl = (some .serializationError, s) :=
  store_serialize_fail hser

theorem claim_C8_witness :
    store failCodec 2 0 emptyShard "a" 0 5 =
      (some .serializationError, emptyShard) :=
  claim_C8 failCodec 2 0 5 emptyShard "a" 0 rfl

/-- C9 (counterexample): `NewCache` with a valid shard count and
capacity but a non-positive sweep interval does not fail — construction
succeeds, refuting the claim that a non-positive sweep interval causes
fatal construction failure. -/
theorem claim_C9_counterexample :
    ((-1 : Int) ≤ 0) ∧ (newCache 1 1 (-1)).isSome = true := by
  constructor
  · decide
  · rfl

/-- C9 (amended): `NewCache` fails fatally exactly when the shard count
or the per-shard capacity is non-positive; the sweep interval is not
validated at construction. -/
theorem claim_C9_amended (n m i : Int) :
    newCache n m i = none ↔ n ≤ 0 ∨ m ≤ 0 := by
  rw [newCache]
  by_cases hn : n ≤ 0
  · simp [hn]
  · by_cases hm : m ≤ 0 <;> simp [hn, hm]

/-- C10: `Update` serializes before checking key existence, so on an
absent key with an un-encodable value it returns the serialization
error, not key-not-found; in both failure cases the shard state is
returned unchanged. -/
theorem claim_C10 {V : Type} (cd : Codec V) (now ttl : Int)
    (s : CacheShard) (k : Key) (v : V) :
    (cd.serialize v = none →
      update cd now s k v ttl = (some .serializationError, s)) ∧
    (∀ pv, cd.serialize v = some pv → mapLoad s.data k = none →
      update cd now s k v ttl = (some (.keyNotFound k), s)) :=
  ⟨fun hser => update_serialize_fail hser,
   fun _ hser habs => update_absent hser habs⟩

theorem claim_C10_witness :
    update failCodec 0 emptyShard "a" 0 5 =
      (some .serializationError, emptyShard) ∧
    update natCodec 0 emptyShard "a" 7 5 =
      (some (.keyNotFound "a"), emptyShard) :=
  ⟨(claim_C10 failCodec 0 5 emptyShard "a" 0).1 rfl,
   (claim_C10 natCodec 0 5 emptyShard "a" 7).2 [7] rfl rfl⟩

/-- C4: `Fetch` on an absent key returns `(nil, false, nil)` with no
mutation; `Fetch` on a present but expired entry (`now > expiresAt`)
removes the entry from both the map and the LRU order and returns the
same `(nil, false, nil)`, indistinguishable from a true miss. -/
theorem claim_C4 {V : Type} (cd : Codec V) (now : Int) (s : CacheShard)
    (k : Key) (hwf : WF s) :
    (mapLoad s.data k = none →
      fetch cd now s k = ((none, false, none), s)) ∧
    (∀ it, mapLoad s.data k = some it → now > it.Expiration →
      (fetch cd now s k).1 = (none, false, none) ∧
      mapLoad (fetch cd now s k).2.data k = none ∧
      k ∉ (fetch cd now s k).2.lruList) := by
  constructor
  · exact fun h => fetch_miss h
  · intro it hit hexp
    rw [fetch_expired hit hexp]
    refine ⟨rfl, ?_, ?_⟩
    · rw [mapLoad_mapDelete, if_pos rfl]
    · exact hwf.lruNodup.not_mem_erase

theorem claim_C4_witness :
    fetch natCodec 0 emptyShard "a" = ((none, false, none), emptyShard) ∧
    ((fetch natCodec 2 expiredShard "a").1 = (none, false, none) ∧
      mapLoad (fetch natCodec 2 expiredShard "a").2.data "a" = none ∧
      "a" ∉ (fetch natCodec 2 expiredShard "a").2.lruList) :=
  ⟨(claim_C4 natCodec 0 emptyShard "a" wf_empty).1 rfl,
   (claim_C4 natCodec 2 expiredShard "a" wf_expiredShard).2 ⟨[5], 1⟩
     rfl (by decide)⟩

/-- C3: every mutator — `Store`, `Fetch` (including its lazy-expiry
removal), `Update`, `Delete`, the background sweep pass, and the
per-shard work of `CleanupAll` — preserves well-formedness and hence
the invariant that a key is present in the entry map if and only if it
appears exactly once in the LRU order. -/
theorem claim_C3 {V : Type} (cd : Codec V) (max now ttl : Int)
    (s : CacheShard) (k : Key) (v : V) (hwf : WF s) :
    (WF (store cd max now s k v ttl).2 ∧
      entriesLruInv (store cd max now s k v ttl).2) ∧
    (WF (fetch cd now s k).2 ∧ entriesLruInv (fetch cd now s k).2) ∧
    (WF (update cd now s k v ttl).2 ∧
      entriesLruInv (update cd now s k v ttl).2) ∧
    (WF (delete s k) ∧ entriesLruInv (delete s k)) ∧
    (WF (cleanupShard now s) ∧ entriesLruInv (cleanupShard now s)) ∧
    (WF (clearShard s) ∧ entriesLruInv (clearShard s)) :=
  ⟨⟨wf_store hwf, (wf_store hwf).entriesInv⟩,
   ⟨wf_fetch hwf, (wf_fetch hwf).entriesInv⟩,
   ⟨wf_update hwf, (wf_update hwf).entriesInv⟩,
   ⟨wf_delete hwf, (wf_delete hwf).entriesInv⟩,
   ⟨wf_cleanupShard hwf, (wf_cleanupShard hwf).entriesInv⟩,
   ⟨wf_empty, wf_empty.entriesInv⟩⟩

theorem claim_C3_witness :
    WF (delete oneShard "a") ∧ entriesLruInv (delete oneShard "a") :=
  (claim_C3 natCodec 2 0 5 oneShard "a" 0 wf_oneShard).2.2.2.1

/-- C1: starting from an empty shard, after every `Store` in any
sequence of `Store` calls the shard holds at most `maxItemsPerShard`
entries; a single `Store` on an at-capacity well-formed shard stays
within capacity, any evicted key is the one at the back of the refreshed
LRU order (hence at most one eviction per call), and the back entry is
evicted exactly when the refreshed LRU order exceeds capacity — a
condition that never consults TTL/expiration state. -/
theorem claim_C1 {V : Type} (cd : Codec V) (max now ttl : Int)
    (s : CacheShard) (k : Key) (v : V)
    (hmax : 1 ≤ max) (hwf : WF s) (hsz : (sizeShard s : Int) ≤ max) :
    (∀ ops : List (Int × Key × V × Int),
      (sizeShard (applyStores cd max emptyShard ops) : Int) ≤ max) ∧
    (sizeShard (store cd max now s k v ttl).2 : Int) ≤ max ∧
    (∀ k', k' ≠ k → (mapLoad s.data k').isSome →
      mapLoad (store cd max now s k v ttl).2.data k' = none →
      (k :: s.lruList.erase k).getLast? = some k') ∧
    (∀ pv, cd.serialize v = some pv →
      ∀ hne : s.lruList.erase k ≠ [],
        (mapLoad (store cd max now s k v ttl).2.data
            ((s.lruList.erase k).getLast hne) = none ↔
          ((k :: s.lruList.erase k).length : Int) > max)) := by
  refine ⟨?_, sizeShard_store_le hwf hsz, ?_, ?_⟩
  · intro ops
    exact (applyStores_invariant cd max ops emptyShard wf_empty
      (by simp [sizeShard, emptyShard]; omega)).2
  · intro k' hne hbefore hafter
    cases hser : cd.serialize v with
    | none =>
      rw [store_serialize_fail hser] at hafter
      rw [← Option.not_isSome_iff_eq_none] at hafter
      exact absurd hbefore hafter
    | some pv => exact store_removed_key hwf hser hne hbefore hafter
  · intro pv hser hne
    exact store_evict_iff hwf hser hne

theorem claim_C1_witness :
    (sizeShard (store natCodec 2 0 emptyShard "a" 3 5).2 : Int) ≤ 2 :=
  (claim_C1 natCodec 2 0 5 emptyShard "a" 3 (by decide) wf_empty
    (by decide)).2.1

/-- C5: storing a value whose serialization round-trips through the
codec and fetching it with TTL greater than the elapsed time returns
the stored value with `found = true` and no error. -/
theorem claim_C5 {V : Type} (cd : Codec V) (max now t1 ttl : Int)
    (s : CacheShard) (k : Key) (v : V) (pv : List Nat)
    (hwf : WF s) (hmax : 1 ≤ max)
    (hser : cd.serialize v = some pv) (hdes : cd.deserialize pv = some v)
    (helapsed : t1 - now < ttl) :
    (store cd max now s k v ttl).1 = none ∧
    (fetch cd t1 (store cd max now s k v ttl).2 k).1 =
      (some v, true, none) := by
  refine ⟨store_ok hwf hser, ?_⟩
  have hload := @store_load_self V cd max now ttl s k v pv hwf hmax hser
  have hexp : ¬t1 > (CacheItem.mk pv (now + ttl)).Expiration := by
    simp only [CacheItem.mk.injEq]
    omega
  rw [fetch_hit hload hexp hdes]

theorem claim_C5_witness :
    (store natCodec 2 0 emptyShard "a" 3 5).1 = none ∧
    (fetch natCodec 4 (store natCodec 2 0 emptyShard "a" 3 5).2 "a").1 =
      (some 3, true, none) :=
  claim_C5 natCodec 2 0 4 5 emptyShard "a" 3 [3] wf_empty (by decide)
    rfl rfl (by decide)

/-- C6: `Update` on an absent key fails with a key-not-found error and
returns the shard unchanged; `Update` on a present key succeeds,
replaces the payload and expiration in place, moves the key to the
front of the LRU order, and changes neither the entry count nor the set
of present keys (so no eviction occurs). -/
theorem claim_C6 {V : Type} (cd : Codec V) (now ttl : Int)
    (s : CacheShard) (k : Key) (v : V) (pv : List Nat)
    (hwf : WF s) (hser : cd.serialize v = some pv) :
    (mapLoad s.data k = none →
      update cd now s k v ttl = (some (.keyNotFound k), s)) ∧
    (∀ it, mapLoad s.data k = some it →
      (update cd now s k v ttl).1 = none ∧
      mapLoad (update cd now s k v ttl).2.data k = some ⟨pv, now + ttl⟩ ∧
      (update cd now s k v ttl).2.lruList = k :: s.lruList.erase k ∧
      sizeShard (update cd now s k v ttl).2 = sizeShard s ∧
      (∀ k', (mapLoad (update cd now s k v ttl).2.data k').isSome ↔
        (mapLoad s.data k').isSome)) := by
  constructor
  · exact fun habs => update_absent hser habs
  · intro it hit
    have hkmem : k ∈ s.data.map Prod.fst :=
      mapLoad_isSome_iff.1 (by rw [hit]; rfl)
    have hklru : k ∈ s.lruList := hwf.data_sub k hkmem
    rw [update_present hser hit]
    refine ⟨rfl, ?_, rfl, ?_, ?_⟩
    · rw [mapLoad_mapStore, if_pos rfl]
    · have hwf2 : WF ⟨mapStore s.data k ⟨pv, now + ttl⟩,
          k :: s.lruList.erase k⟩ := wf_storeFront hwf
      have h2 := hwf2.length_eq
      have h1 := hwf.length_eq
      simp only [List.length_cons] at h2
      rw [List.length_erase_of_mem hklru] at h2
      simp only [sizeShard]
      have hpos : 0 < s.lruList.length := List.length_pos.2
        (fun hnil => by simp [hnil] at hklru)
      omega
    · intro k'
      rw [mapLoad_mapStore]
      by_cases hk' : k' = k
      · subst hk'
        rw [if_pos rfl, hit]
        simp
      · rw [if_neg hk']

theorem claim_C6_witness :
    update natCodec 0 emptyShard "a" 7 5 =
      (some (.keyNotFound "a"), emptyShard) ∧
    ((update natCodec 0 oneShard "a" 7 5).1 = none ∧
      mapLoad (update natCodec 0 oneShard "a" 7 5).2.data "a" =
        some ⟨[7], 0 + 5⟩ ∧
      (update natCodec 0 oneShard "a" 7 5).2.lruList =
        "a" :: oneShard.lruList.erase "a" ∧
      sizeShard (update natCodec 0 oneShard "a" 7 5).2 =
        sizeShard oneShard ∧
      (∀ k', (mapLoad (update natCodec 0 oneShard "a" 7 5).2.data
          k').isSome ↔ (mapLoad oneShard.data k').isSome)) :=
  ⟨(claim_C6 natCodec 0 5 emptyShard "a" 7 [7] wf_empty rfl).1 rfl,
   (claim_C6 natCodec 0 5 oneShard "a" 7 [7] wf_oneShard rfl).2
     ⟨[3], 100⟩ rfl⟩

/-- C7 (counterexample): an entry whose expiration equals the sweep
instant satisfies `expiresAt <= now`, yet the sweep leaves it in both
the map and the LRU order, because `cleanupShard` removes only entries
with `now > Expiration` (strictly). -/
theorem claim_C7_counterexample :
    ((5 : Int) ≤ 5) ∧
    mapLoad (cleanupShard 5 ⟨[("a", ⟨[], 5⟩)], ["a"]⟩).data "a" =
      some ⟨[], 5⟩ ∧
    "a" ∈ (cleanupShard 5 ⟨[("a", ⟨[], 5⟩)], ["a"]⟩).lruList := by
  refine ⟨by decide, ?_, ?_⟩ <;> decide

/-- C7 (amended): a sweep pass removes exactly the entries with
`expiresAt < now` (strictly before the sweep instant): each such entry
leaves both the map and the LRU order, every other entry stays in both,
and the pass preserves well-formedness. -/
theorem claim_C7_amended (now : Int) (s : CacheShard) (hwf : WF s) :
    (∀ k it, mapLoad s.data k = some it → it.Expiration < now →
      mapLoad (cleanupShard now s).data k = none ∧
      k ∉ (cleanupShard now s).lruList) ∧
    (∀ k it, mapLoad s.data k = some it → now ≤ it.Expiration →
      mapLoad (cleanupShard now s).data k = some it ∧
      k ∈ (cleanupShard now s).lruList) ∧
    WF (cleanupShard now s) := by
  refine ⟨?_, ?_, wf_cleanupShard hwf⟩
  · intro k it hit hexp
    have hgt : now > it.Expiration := hexp
    constructor
    · rw [cleanupShard]
      dsimp only
      rw [mapLoad_filter hwf.dataNodup, hit]
      simp [hgt]
    · intro hmem
      rw [cleanupShard] at hmem
      dsimp only at hmem
      rcases List.mem_filter.1 hmem with ⟨-, hcond⟩
      have hxmem : k ∈ ((s.data.filter
          (fun p => decide (now > p.2.Expiration))).map Prod.fst) :=
        (mem_keys_filter hwf.dataNodup).2 ⟨it, hit, by simp [hgt]⟩
      simp [hxmem] at hcond
  · intro k it hit hexp
    have hngt : ¬now > it.Expiration := by omega
    constructor
    · rw [cleanupShard]
      dsimp only
      rw [mapLoad_filter hwf.dataNodup, hit]
      simp [hngt]
    · rw [cleanupShard]
      dsimp only
      refine List.mem_filter.2 ⟨hwf.data_sub k
        (mapLoad_isSome_iff.1 (by rw [hit]; rfl)), ?_⟩
      simp only [Bool.not_eq_true', decide_eq_false_iff_not]
      intro hxmem
      rcases (mem_keys_filter hwf.dataNodup).1 hxmem with ⟨it₂, hit₂, hcond₂⟩
      rw [hit] at hit₂
      cases hit₂
      simp only [decide_eq_true_eq] at hcond₂
      exact hngt hcond₂

theorem claim_C7_witness :
    (mapLoad (cleanupShard 5 mixedShard).data "a" = none ∧
      "a" ∉ (cleanupShard 5 mixedShard).lruList) ∧
    (mapLoad (cleanupShard 5 mixedShard).data "b" = some ⟨[], 9⟩ ∧
      "b" ∈ (cleanupShard 5 mixedShard).lruList) :=
  ⟨(claim_C7_amended 5 mixedShard wf_mixedShard).1 "a" ⟨[], 1⟩ rfl
     (by decide),
   (claim_C7_amended 5 mixedShard wf_mixedShard).2.1 "b" ⟨[], 9⟩ rfl
     (by decide)⟩

/-- C2: with one shard of capacity 2 and distinct keys `A`, `B`, `C`
(values encodable, payloads decodable), the sequence
`Store A; Store B; Fetch A; Store C` makes `B` unretrievable while `A`
and `C` remain retrievable: the successful `Fetch` moved `A` to the
front of the LRU order, so `Store C` evicted `B` from the back. -/
theorem claim_C2 {V : Type} (cd : Codec V) (A B C : Key) (va vb vc : V)
    (pa pb pc : List Nat)
    (hAB : A ≠ B) (hAC : A ≠ C) (hBC : B ≠ C)
    (hsa : cd.serialize va = some pa) (hsb : cd.serialize vb = some pb)
    (hsc : cd.serialize vc = some pc)
    (hda : cd.deserialize pa = some va)
    (hdc : cd.deserialize pc = some vc) :
    (fetch cd 0 ((store cd 2 0 (store cd 2 0 emptyShard A va 10).2
        B vb 10).2) A).1 = (some va, true, none) ∧
    (fetch cd 0 (store cd 2 0 (fetch cd 0 ((store cd 2 0
        (store cd 2 0 emptyShard A va 10).2 B vb 10).2) A).2
        C vc 10).2 B).1 = (none, false, none) ∧
    (fetch cd 0 (store cd 2 0 (fetch cd 0 ((store cd 2 0
        (store cd 2 0 emptyShard A va 10).2 B vb 10).2) A).2
        C vc 10).2 A).1 = (some va, true, none) ∧
    (fetch cd 0 (store cd 2 0 (fetch cd 0 ((store cd 2 0
        (store cd 2 0 emptyShard A va 10).2 B vb 10).2) A).2
        C vc 10).2 C).1 = (some vc, true, none) := by
  have h1 : store cd 2 0 emptyShard A va 10 =
      (none, ⟨[(A, ⟨pa, 10⟩)], [A]⟩) := by
    rw [store_eq wf_empty hsa]
    norm_num [emptyShard, mapStore, mapDelete]
  have hs1 : (store cd 2 0 emptyShard A va 10).2 =
      (⟨[(A, ⟨pa, 10⟩)], [A]⟩ : CacheShard) := by rw [h1]
  have hwf1 : WF ⟨[(A, ⟨pa, 10⟩)], [A]⟩ := by
    have h : WF (store cd 2 0 emptyShard A va 10).2 := wf_store wf_empty
    rw [hs1] at h
    exact h
  have h2 : store cd 2 0 (⟨[(A, ⟨pa, 10⟩)], [A]⟩ : CacheShard) B vb 10 =
      (none, ⟨[(B, ⟨pb, 10⟩), (A, ⟨pa, 10⟩)], [B, A]⟩) := by
    rw [store_eq hwf1 hsb]
    norm_num [mapStore, mapDelete, mapLoad, List.erase_cons, beq_iff_eq,
      hAB, Ne.symm hAB]
  have hs2 : (store cd 2 0 (⟨[(A, ⟨pa, 10⟩)], [A]⟩ : CacheShard)
      B vb 10).2 =
      (⟨[(B, ⟨pb, 10⟩), (A, ⟨pa, 10⟩)], [B, A]⟩ : CacheShard) := by
    rw [h2]
  have hwf2 : WF ⟨[(B, ⟨pb, 10⟩), (A, ⟨pa, 10⟩)], [B, A]⟩ := by
    have h : WF (store cd 2 0 (⟨[(A, ⟨pa, 10⟩)], [A]⟩ : CacheShard)
        B vb 10).2 := wf_store hwf1
    rw [hs2] at h
    exact h
  have hloadA2 : mapLoad [(B, ⟨pb, 10⟩), (A, ⟨pa, 10⟩)] A =
      some ⟨pa, 10⟩ := by
    simp [mapLoad, hAB]
  have h3 : fetch cd 0
      (⟨[(B, ⟨pb, 10⟩), (A, ⟨pa, 10⟩)], [B, A]⟩ : CacheShard) A =
      ((some va, true, none),
       ⟨[(B, ⟨pb, 10⟩), (A, ⟨pa, 10⟩)], [A, B]⟩) := by
    rw [fetch_hit hloadA2 (by norm_num) hda]
    norm_num [List.erase_cons, beq_iff_eq, Ne.symm hAB]
  have hf3 : (fetch cd 0
      (⟨[(B, ⟨pb, 10⟩), (A, ⟨pa, 10⟩)], [B, A]⟩ : CacheShard) A).2 =
      (⟨[(B, ⟨pb, 10⟩), (A, ⟨pa, 10⟩)], [A, B]⟩ : CacheShard) := by
    rw [h3]
  have hwf3 : WF ⟨[(B, ⟨pb, 10⟩), (A, ⟨pa, 10⟩)], [A, B]⟩ := by
    have h : WF (fetch cd 0
        (⟨[(B, ⟨pb, 10⟩), (A, ⟨pa, 10⟩)], [B, A]⟩ : CacheShard) A).2 :=
      wf_fetch hwf2
    rw [hf3] at h
    exact h
  have h4 : store cd 2 0
      (⟨[(B, ⟨pb, 10⟩), (A, ⟨pa, 10⟩)], [A, B]⟩ : CacheShard) C vc 10 =
      (none, ⟨[(C, ⟨pc, 10⟩), (A, ⟨pa, 10⟩)], [C, A]⟩) := by
    rw [store_eq hwf3 hsc]
    norm_num [mapStore, mapDelete, mapLoad, List.erase_cons, beq_iff_eq,
      hAC, hBC, Ne.symm hAC, Ne.symm hBC, Ne.symm hAB, hAB,
      List.getLast, List.dropLast]
  have hs4 : (store cd 2 0
      (⟨[(B, ⟨pb, 10⟩), (A, ⟨pa, 10⟩)], [A, B]⟩ : CacheShard)
      C vc 10).2 =
      (⟨[(C, ⟨pc, 10⟩), (A, ⟨pa, 10⟩)], [C, A]⟩ : CacheShard) := by
    rw [h4]
  have h5 : fetch cd 0
      (⟨[(C, ⟨pc, 10⟩), (A, ⟨pa, 10⟩)], [C, A]⟩ : CacheShard) B =
      ((none, false, none),
       ⟨[(C, ⟨pc, 10⟩), (A, ⟨pa, 10⟩)], [C, A]⟩) :=
    fetch_miss (by simp [mapLoad, hBC, Ne.symm hAB])
  have hloadA4 : mapLoad [(C, ⟨pc, 10⟩), (A, ⟨pa, 10⟩)] A =
      some ⟨pa, 10⟩ := by
    simp [mapLoad, hAC]
  have h6 : fetch cd 0
      (⟨[(C, ⟨pc, 10⟩), (A, ⟨pa, 10⟩)], [C, A]⟩ : CacheShard) A =
      ((some va, true, none),
       ⟨[(C, ⟨pc, 10⟩), (A, ⟨pa, 10⟩)], [A, C]⟩) := by
    rw [fetch_hit hloadA4 (by norm_num) hda]
    norm_num [List.erase_cons, beq_iff_eq, Ne.symm hAC]
  have hloadC4 : mapLoad [(C, ⟨pc, 10⟩), (A, ⟨pa, 10⟩)] C =
      some ⟨pc, 10⟩ := by
    simp [mapLoad]
  have h7 : fetch cd 0
      (⟨[(C, ⟨pc, 10⟩), (A, ⟨pa, 10⟩)], [C, A]⟩ : CacheShard) C =
      ((some vc, true, none),
       ⟨[(C, ⟨pc, 10⟩), (A, ⟨pa, 10⟩)], [C, A]⟩) := by
    rw [fetch_hit hloadC4 (by norm_num) hdc]
    norm_num [List.erase_cons, beq_iff_eq]
  refine ⟨?_, ?_, ?_, ?_⟩
  · rw [hs1, hs2, h3]
  · rw [hs1, hs2, hf3, hs4, h5]
  · rw [hs1, hs2, hf3, hs4, h6]
  · rw [hs1, hs2, hf3, hs4, h7]

theorem claim_C2_witness :
    (fetch natCodec 0 ((store natCodec 2 0 (store natCodec 2 0 emptyShard
        "a" 1 10).2 "b" 2 10).2) "a").1 = (some 1, true, none) ∧
    (fetch natCodec 0 (store natCodec 2 0 (fetch natCodec 0
        ((store natCodec 2 0 (store natCodec 2 0 emptyShard "a" 1 10).2
        "b" 2 10).2) "a").2 "c" 3 10).2 "b").1 = (none, false, none) ∧
    (fetch natCodec 0 (store natCodec 2 0 (fetch natCodec 0
        ((store natCodec 2 0 (store natCodec 2 0 emptyShard "a" 1 10).2
        "b" 2 10).2) "a").2 "c" 3 10).2 "a").1 = (some 1, true, none) ∧
    (fetch natCodec 0 (store natCodec 2 0 (fetch natCodec 0
        ((store natCodec 2 0 (store natCodec 2 0 emptyShard "a" 1 10).2
        "b" 2 10).2) "a").2 "c" 3 10).2 "c").1 = (some 3, true, none) :=
  claim_C2 natCodec "a" "b" "c" 1 2 3 [1] [2] [3]
    (by decide) (by decide) (by decide) rfl rfl rfl rfl rfl

end Hoard
